import Mathlib

/-!
Shallow embedding of the KGP client library `src/client/pykgp/kgp.py`
(Kalah Game Protocol, python client).  The board model, the wire codec and
the session dispatcher are translated into executable Lean definitions, and
the behavioural properties of the specification are settled against them.

Conventions of the embedding:
* Python `True`/`False` side tags become `Bool` (`NORTH = true`,
  `SOUTH = false`, as in the source).
* Python non-negative ints (stone counts, ids) become `Nat`; the agent's
  moves, which are arbitrary Python ints, become `Int`.
* Python list indexing goes through `List.getD _ _ 0` / `List.set`; the
  source asserts `0 <= pit < size` before every access, so in-range
  accesses agree, and the claims' theorems only depend on in-range uses.
* Python strings become `List Char`; the regular expressions of the source
  are translated into equivalent deterministic scanners (`\d` and `\s` are
  modelled over their ASCII ranges, which is what the protocol uses).
-/

namespace Kgp

/-- Source: `NORTH = True`. -/
def NORTH : Bool := true

/-- Source: `SOUTH = not NORTH`. -/
def SOUTH : Bool := !NORTH

/-- Board state representation (`class Board`): two stores and two pit
rows.  The constructor of the source asserts
`len(north_pits) == len(south_pits)`; theorems that need it carry that
equation as a hypothesis. -/
structure Board where
  south : Nat
  north : Nat
  south_pits : List Nat
  north_pits : List Nat
deriving Repr, DecidableEq

/-- Source: `self.size = len(north_pits)`. -/
def Board.size (b : Board) : Nat := b.north_pits.length

/-- Method `Board.side`: the pit row of a side. -/
def Board.side (b : Board) (s : Bool) : List Nat :=
  if s = NORTH then b.north_pits else b.south_pits

/-- Method `Board.pit`: number of stones in a pit (source asserts the index is in
range; out-of-range reads default to 0 in the model). -/
def Board.pit (b : Board) (s : Bool) (p : Nat) : Nat :=
  (b.side s).getD p 0

/-- Reading `b[side]` for a side key: the store of the side. -/
def Board.store (b : Board) (s : Bool) : Nat :=
  if s = NORTH then b.north else b.south

/-- Writing `b[side] = v`: replace the store of a side. -/
def Board.setStore (b : Board) (s : Bool) (v : Nat) : Board :=
  if s = NORTH then { b with north := v } else { b with south := v }

/-- Writing `b[side, pit] = v`: replace one pit (out-of-range writes are dropped in
the model; the source asserts the index is in range). -/
def Board.setPit (b : Board) (s : Bool) (p : Nat) (v : Nat) : Board :=
  if s = NORTH then { b with north_pits := b.north_pits.set p v }
  else { b with south_pits := b.south_pits.set p v }

/-- Method `Board.is_legal`: a move is legal iff its pit holds at least one
stone. -/
def Board.is_legal (b : Board) (s : Bool) (move : Nat) : Bool :=
  decide (b.pit s move > 0)

/-- Method `Board.legal_moves`: indices `0..size-1` with a non-empty pit. -/
def Board.legal_moves (b : Board) (s : Bool) : List Nat :=
  (List.range b.size).filter (fun move => b.is_legal s move)

/-- Method `Board.is_final`: some side has no legal move. -/
def Board.is_final (b : Board) : Bool :=
  (b.legal_moves NORTH).isEmpty || (b.legal_moves SOUTH).isEmpty

/-- Method `Board._collect`: sweep every pit into its own side's store, zero all
pits, and report `again = False`. -/
def Board.collect (b : Board) : Board × Bool :=
  ({ north := b.north + b.north_pits.sum,
     north_pits := List.replicate b.north_pits.length 0,
     south := b.south + b.south_pits.sum,
     south_pits := List.replicate b.south_pits.length 0 }, false)

/-- The `while stones > 0` loop of `Board.sow`.  `sz` is `self.size`,
`me` the mover, `side`/`pos` the sowing cursor, `stones` the stones in
hand.  Returns the board and the final cursor. -/
def sowLoop (b : Board) (sz : Nat) (me side : Bool) (pos stones : Nat) :
    Board × Bool × Nat :=
  if stones = 0 then (b, side, pos)
  else if pos = sz then
    if side = me then
      sowLoop (b.setStore me (b.store me + 1)) sz me (!side) 0 (stones - 1)
    else
      sowLoop b sz me (!side) 0 stones
  else
    sowLoop (b.setPit side pos (b.pit side pos + 1)) sz me side (pos + 1)
      (stones - 1)
termination_by 2 * stones + (if side = me then 0 else 1)
decreasing_by
· cases side <;> cases me <;> simp_all <;> omega
· cases side <;> cases me <;> simp_all
· cases side <;> cases me <;> simp_all <;> omega

/-- The capture block of `Board.sow`: credit the mover's store with the
opposite pit plus the landing stone, then zero both pits (in the order of
the source). -/
def Board.captureStep (b2 : Board) (me : Bool) (last other : Nat) : Board :=
  ((b2.setStore me (b2.store me + b2.pit (!me) other + 1)).setPit
    (!me) other 0).setPit me last 0

/-- Method `Board.sow side pit`: empty the chosen pit, run the sowing loop, then
apply the again rule, the capture rule and endgame collection exactly as
the source does, returning the new board and the again flag. -/
def Board.sow (b : Board) (side : Bool) (pit : Nat) : Board × Bool :=
  let me := side
  let r := sowLoop (b.setPit side pit 0) b.size me side (pit + 1)
    (b.pit side pit)
  let b2 := r.1
  let side2 := r.2.1
  let pos2 := r.2.2
  if pos2 = 0 ∧ ¬ me = side2 then
    if b2.is_final then b2.collect else (b2, true)
  else
    let b3 :=
      if side2 = me ∧ 0 < pos2 then
        let last := pos2 - 1
        let other := b.size - 1 - last
        if b2.pit side2 last = 1 ∧ 0 < b2.pit (!side2) other then
          b2.captureStep me last other
        else b2
      else b2
    if b3.is_final then b3.collect else (b3, false)

/-! ### List helpers for pit updates -/

theorem getD_set_self (l : List Nat) (i v : Nat) (h : i < l.length) :
    (l.set i v).getD i 0 = v := by
  induction l generalizing i with
  | nil => simp at h
  | cons a t ih =>
    cases i with
    | zero => simp [List.set, List.getD]
    | succ j =>
      simp only [List.length_cons, Nat.succ_lt_succ_iff] at h
      simpa [List.set, List.getD] using ih j h

theorem getD_zero_of_le (l : List Nat) (i : Nat) (h : l.length ≤ i) :
    l.getD i 0 = 0 := by
  induction l generalizing i with
  | nil => simp [List.getD]
  | cons a t ih =>
    cases i with
    | zero => simp at h
    | succ j =>
      simp only [List.length_cons, Nat.succ_le_succ_iff] at h
      simpa [List.getD] using ih j h

theorem lt_length_of_getD_pos (l : List Nat) (i : Nat)
    (h : 0 < l.getD i 0) : i < l.length := by
  by_contra hc
  rw [getD_zero_of_le l i (Nat.le_of_not_lt hc)] at h
  exact Nat.lt_irrefl 0 h

theorem sum_set_add_getD (l : List Nat) (i v : Nat) (h : i < l.length) :
    (l.set i v).sum + l.getD i 0 = l.sum + v := by
  induction l generalizing i with
  | nil => simp at h
  | cons a t ih =>
    cases i with
    | zero => simp [List.set, List.getD]; omega
    | succ j =>
      simp only [List.length_cons, Nat.succ_lt_succ_iff] at h
      have := ih j h
      simp only [List.set, List.getD_cons_succ, List.sum_cons] at *
      omega

theorem getD_replicate_zero (n i : Nat) :
    (List.replicate n (0 : Nat)).getD i 0 = 0 := by
  induction n generalizing i with
  | zero => simp [List.getD]
  | succ m ih =>
    cases i with
    | zero => simp [List.replicate, List.getD]
    | succ j => simp [List.replicate, List.getD_cons_succ, ih j]

/-! ### Stone conservation -/

/-- The total number of stones on a board: both stores plus all pits of
both sides. -/
def totalStones (b : Board) : Nat :=
  b.south + b.north + b.south_pits.sum + b.north_pits.sum

theorem south_pits_setStore (b : Board) (s : Bool) (v : Nat) :
    (b.setStore s v).south_pits = b.south_pits := by
  cases s <;> simp [Board.setStore, NORTH]

theorem north_pits_setStore (b : Board) (s : Bool) (v : Nat) :
    (b.setStore s v).north_pits = b.north_pits := by
  cases s <;> simp [Board.setStore, NORTH]

theorem length_south_pits_setPit (b : Board) (s : Bool) (i v : Nat) :
    (b.setPit s i v).south_pits.length = b.south_pits.length := by
  cases s <;> simp [Board.setPit, NORTH]

theorem length_north_pits_setPit (b : Board) (s : Bool) (i v : Nat) :
    (b.setPit s i v).north_pits.length = b.north_pits.length := by
  cases s <;> simp [Board.setPit, NORTH]

theorem totalStones_setStore_add (b : Board) (s : Bool) (k : Nat) :
    totalStones (b.setStore s (b.store s + k)) = totalStones b + k := by
  cases s <;> simp [Board.setStore, Board.store, totalStones, NORTH] <;> omega

theorem totalStones_setPit (b : Board) (s : Bool) (i v : Nat)
    (h : i < (b.side s).length) :
    totalStones (b.setPit s i v) + b.pit s i = totalStones b + v := by
  cases s with
  | false =>
    simp only [Board.side, NORTH, Bool.false_eq_true, reduceIte] at h
    have hsum := sum_set_add_getD b.south_pits i v h
    simp only [Board.setPit, Board.pit, Board.side, totalStones, NORTH,
      Bool.false_eq_true, reduceIte]
    omega
  | true =>
    simp only [Board.side, NORTH, reduceIte] at h
    have hsum := sum_set_add_getD b.north_pits i v h
    simp only [Board.setPit, Board.pit, Board.side, totalStones, NORTH,
      reduceIte]
    omega

theorem totalStones_collect (b : Board) :
    totalStones (b.collect).1 = totalStones b := by
  simp [Board.collect, totalStones]; omega

theorem length_side (b : Board) (s : Bool) (sz : Nat)
    (hs : b.south_pits.length = sz) (hn : b.north_pits.length = sz) :
    (b.side s).length = sz := by
  cases s <;> simp [Board.side, NORTH, hs, hn]

/-- Invariant of the sowing loop: every placed stone comes out of the hand,
so the loop adds exactly `stones` to the board total; pit-row lengths are
preserved and the final cursor position stays within `0..sz`. -/
theorem sowLoop_spec (b : Board) (sz : Nat) (me side : Bool)
    (pos stones : Nat) :
    b.south_pits.length = sz → b.north_pits.length = sz → pos ≤ sz →
    totalStones (sowLoop b sz me side pos stones).1 = totalStones b + stones ∧
    (sowLoop b sz me side pos stones).1.south_pits.length = sz ∧
    (sowLoop b sz me side pos stones).1.north_pits.length = sz ∧
    (sowLoop b sz me side pos stones).2.2 ≤ sz := by
  induction b, sz, me, side, pos, stones using sowLoop.induct with
  | case1 b sz me side pos =>
    intro hs hn hpos
    rw [sowLoop]
    simpa using ⟨hs, hn, hpos⟩
  | case2 b side pos stones h1 ih =>
    intro hs hn _
    rw [sowLoop]
    simp only [h1, reduceIte, if_pos rfl]
    obtain ⟨iht, ihs, ihn, ihp⟩ := ih
      (by rw [south_pits_setStore]; exact hs)
      (by rw [north_pits_setStore]; exact hn)
      (Nat.zero_le pos)
    refine ⟨?_, ihs, ihn, ihp⟩
    rw [iht, totalStones_setStore_add]
    omega
  | case3 b me side pos stones h1 h2 ih =>
    intro hs hn _
    rw [sowLoop]
    simp only [h1, h2, reduceIte, if_pos rfl, if_neg h2]
    exact ih hs hn (Nat.zero_le pos)
  | case4 b sz me side pos stones h1 h2 ih =>
    intro hs hn hpos
    have hlt : pos < sz := Nat.lt_of_le_of_ne hpos h2
    rw [sowLoop]
    simp only [h1, h2, reduceIte]
    obtain ⟨iht, ihs, ihn, ihp⟩ := ih
      (by rw [length_south_pits_setPit]; exact hs)
      (by rw [length_north_pits_setPit]; exact hn)
      (Nat.succ_le_of_lt hlt)
    refine ⟨?_, ihs, ihn, ihp⟩
    have hside : pos < (b.side side).length := by
      rw [length_side b side sz hs hn]; exact hlt
    have := totalStones_setPit b side pos (b.pit side pos + 1) hside
    omega

theorem side_setStore (b : Board) (s t : Bool) (v : Nat) :
    (b.setStore s v).side t = b.side t := by
  cases s <;> cases t <;> simp [Board.setStore, Board.side, NORTH]

theorem pit_setStore (b : Board) (s t : Bool) (v j : Nat) :
    (b.setStore s v).pit t j = b.pit t j := by
  simp [Board.pit, side_setStore]

theorem store_setPit (b : Board) (s t : Bool) (i v : Nat) :
    (b.setPit s i v).store t = b.store t := by
  cases s <;> cases t <;> simp [Board.setPit, Board.store, NORTH]

theorem store_setStore_self (b : Board) (s : Bool) (v : Nat) :
    (b.setStore s v).store s = v := by
  cases s <;> simp [Board.setStore, Board.store, NORTH]

theorem side_setPit_self (b : Board) (s : Bool) (i v : Nat) :
    (b.setPit s i v).side s = (b.side s).set i v := by
  cases s <;> simp [Board.setPit, Board.side, NORTH]

theorem side_setPit_not (b : Board) (s : Bool) (i v : Nat) :
    (b.setPit s i v).side (!s) = b.side (!s) := by
  cases s <;> simp [Board.setPit, Board.side, NORTH]

theorem pit_setPit_self (b : Board) (s : Bool) (i v : Nat)
    (h : i < (b.side s).length) :
    (b.setPit s i v).pit s i = v := by
  rw [Board.pit, side_setPit_self]
  exact getD_set_self _ i v h

theorem pit_setPit_not (b : Board) (s : Bool) (i v j : Nat) :
    (b.setPit s i v).pit (!s) j = b.pit (!s) j := by
  rw [Board.pit, side_setPit_not, Board.pit]

theorem side_setPit_of_ne (b : Board) (s t : Bool) (i v : Nat) (h : s ≠ t) :
    (b.setPit s i v).side t = b.side t := by
  cases s <;> cases t <;> simp_all [Board.setPit, Board.side, NORTH]

theorem pit_setPit_of_ne (b : Board) (s t : Bool) (i v j : Nat) (h : s ≠ t) :
    (b.setPit s i v).pit t j = b.pit t j := by
  rw [Board.pit, side_setPit_of_ne b s t i v h, Board.pit]

/-- The capture step moves the landing stone (1) and the opposite pit's
contents into the mover's store: it conserves the total stone count. -/
theorem totalStones_captureStep (b2 : Board) (me : Bool) (last other : Nat)
    (h1 : b2.pit me last = 1) (h2 : 0 < b2.pit (!me) other) :
    totalStones (b2.captureStep me last other) = totalStones b2 := by
  have hlast : last < (b2.side me).length :=
    lt_length_of_getD_pos _ _ (by rw [Board.pit] at h1; omega)
  have hother : other < (b2.side (!me)).length := lt_length_of_getD_pos _ _ h2
  rw [Board.captureStep]
  have ha : totalStones (b2.setStore me (b2.store me + b2.pit (!me) other + 1))
      = totalStones b2 + (b2.pit (!me) other + 1) := by
    rw [← Nat.add_assoc] at *
    exact totalStones_setStore_add b2 me (b2.pit (!me) other + 1)
  have hother2 : other <
      ((b2.setStore me (b2.store me + b2.pit (!me) other + 1)).side
        (!me)).length := by
    rw [side_setStore]; exact hother
  have hb := totalStones_setPit
    (b2.setStore me (b2.store me + b2.pit (!me) other + 1)) (!me) other 0
    hother2
  rw [pit_setStore] at hb
  have hne : (!me) ≠ me := by cases me <;> simp
  have hlast2 : last <
      (((b2.setStore me (b2.store me + b2.pit (!me) other + 1)).setPit
        (!me) other 0).side me).length := by
    rw [side_setPit_of_ne _ _ _ _ _ hne, side_setStore]
    exact hlast
  have hc := totalStones_setPit
    ((b2.setStore me (b2.store me + b2.pit (!me) other + 1)).setPit
      (!me) other 0) me last 0 hlast2
  rw [pit_setPit_of_ne _ _ _ _ _ _ hne, pit_setStore, h1] at hc
  omega

/-- Claim C4: for every board and legal move, `sow` conserves the total
number of stones (stores plus all pits of both sides). -/
theorem sow_conserves (b : Board) (side : Bool) (i : Nat)
    (hlen : b.south_pits.length = b.north_pits.length)
    (hleg : b.is_legal side i = true) :
    totalStones (b.sow side i).1 = totalStones b := by
  have hpit : 0 < b.pit side i := by
    simpa [Board.is_legal] using hleg
  have hi : i < (b.side side).length := lt_length_of_getD_pos _ _ hpit
  have hsz : (b.side side).length = b.size := by
    cases side <;> simp [Board.side, Board.size, NORTH, hlen]
  have hb1s : (b.setPit side i 0).south_pits.length = b.size := by
    rw [length_south_pits_setPit]
    cases side <;> simp [Board.size, NORTH, hlen]
  have hb1n : (b.setPit side i 0).north_pits.length = b.size := by
    rw [length_north_pits_setPit]; rfl
  have hinit := totalStones_setPit b side i 0 hi
  obtain ⟨ht, hs2, hn2, hp2⟩ := sowLoop_spec (b.setPit side i 0) b.size side
    side (i + 1) (b.pit side i) hb1s hb1n
    (Nat.succ_le_of_lt (hsz ▸ hi))
  have htot : totalStones
      (sowLoop (b.setPit side i 0) b.size side side (i + 1)
        (b.pit side i)).1 = totalStones b := by omega
  simp only [Board.sow]
  set r := sowLoop (b.setPit side i 0) b.size side side (i + 1)
    (b.pit side i) with hr
  by_cases hA : r.2.2 = 0 ∧ ¬ side = r.2.1
  · rw [if_pos hA]
    by_cases hB : r.1.is_final = true
    · rw [if_pos hB, totalStones_collect]; exact htot
    · rw [if_neg hB]; exact htot
  · rw [if_neg hA]
    by_cases hC : r.2.1 = side ∧ 0 < r.2.2
    · rw [if_pos hC]
      by_cases hD : r.1.pit r.2.1 (r.2.2 - 1) = 1 ∧
          0 < r.1.pit (!r.2.1) (b.size - 1 - (r.2.2 - 1))
      · rw [if_pos hD]
        have hcap : totalStones (r.1.captureStep side (r.2.2 - 1)
            (b.size - 1 - (r.2.2 - 1))) = totalStones r.1 :=
          totalStones_captureStep r.1 side (r.2.2 - 1)
            (b.size - 1 - (r.2.2 - 1)) (hC.1 ▸ hD.1) (hC.1 ▸ hD.2)
        by_cases hE : (r.1.captureStep side (r.2.2 - 1)
            (b.size - 1 - (r.2.2 - 1))).is_final = true
        · rw [if_pos hE, totalStones_collect, hcap]; exact htot
        · rw [if_neg hE]; rw [hcap] at *; exact htot
      · rw [if_neg hD]
        by_cases hE : r.1.is_final = true
        · rw [if_pos hE, totalStones_collect]; exact htot
        · rw [if_neg hE]; exact htot
    · rw [if_neg hC]
      by_cases hE : r.1.is_final = true
      · rw [if_pos hE, totalStones_collect]; exact htot
      · rw [if_neg hE]; exact htot

/-! ### Termination of the sowing loop (claim C10) -/

/-- Step-indexed version of the sowing loop: one unit of fuel is spent per
iteration of the `while stones > 0` loop, and `none` is returned when the
fuel runs out before the loop is done. -/
def sowLoopF (fuel : Nat) (b : Board) (sz : Nat) (me side : Bool)
    (pos stones : Nat) : Option (Board × Bool × Nat) :=
  match fuel with
  | 0 => if stones = 0 then some (b, side, pos) else none
  | fuel + 1 =>
    if stones = 0 then some (b, side, pos)
    else if pos = sz then
      if side = me then
        sowLoopF fuel (b.setStore me (b.store me + 1)) sz me (!side) 0
          (stones - 1)
      else
        sowLoopF fuel b sz me (!side) 0 stones
    else
      sowLoopF fuel (b.setPit side pos (b.pit side pos + 1)) sz me side
        (pos + 1) (stones - 1)

theorem sowLoopF_complete (fuel : Nat) : ∀ (b : Board) (sz : Nat)
    (me side : Bool) (pos stones : Nat),
    2 * stones + (if side = me then 0 else 1) ≤ fuel →
    sowLoopF fuel b sz me side pos stones
      = some (sowLoop b sz me side pos stones) := by
  induction fuel with
  | zero =>
    intro b sz me side pos stones hf
    have hstones : stones = 0 := by by_contra h; omega
    subst hstones
    rw [sowLoop, sowLoopF]
    simp
  | succ fuel ih =>
    intro b sz me side pos stones hf
    rw [sowLoop, sowLoopF]
    by_cases h0 : stones = 0
    · simp [h0]
    · simp only [h0, reduceIte]
      by_cases hpos : pos = sz
      · simp only [hpos, reduceIte]
        by_cases hside : side = me
        · simp only [hside, reduceIte]
          exact ih _ _ _ _ _ _ (by subst hside; cases side <;> simp_all <;> omega)
        · simp only [hside, reduceIte]
          exact ih _ _ _ _ _ _ (by cases side <;> cases me <;> simp_all)
      · simp only [hpos, reduceIte]
        exact ih _ _ _ _ _ _ (by omega)

/-! ### Where the last stone lands (claim C5) -/

/-- A landing place for a sown stone: a side's store, or pit `i` on a
side's row. -/
inductive Landing where
  | store (s : Bool)
  | pitAt (s : Bool) (i : Nat)
deriving Repr, DecidableEq

/-- The sowing loop instrumented with the landing place of the most
recently placed stone (`none` while no stone has been placed yet).  The
board/cursor components compute exactly as in `sowLoop`. -/
def sowLoopLand (b : Board) (sz : Nat) (me side : Bool) (pos stones : Nat)
    (land : Option Landing) : Board × Bool × Nat × Option Landing :=
  if stones = 0 then (b, side, pos, land)
  else if pos = sz then
    if side = me then
      sowLoopLand (b.setStore me (b.store me + 1)) sz me (!side) 0
        (stones - 1) (some (Landing.store me))
    else
      sowLoopLand b sz me (!side) 0 stones land
  else
    sowLoopLand (b.setPit side pos (b.pit side pos + 1)) sz me side (pos + 1)
      (stones - 1) (some (Landing.pitAt side pos))
termination_by 2 * stones + (if side = me then 0 else 1)
decreasing_by
· cases side <;> cases me <;> simp_all <;> omega
· cases side <;> cases me <;> simp_all
· cases side <;> cases me <;> simp_all <;> omega

/-- The instrumented loop projects onto the plain loop. -/
theorem sowLoopLand_proj (b : Board) (sz : Nat) (me side : Bool)
    (pos stones : Nat) : ∀ land : Option Landing,
    (sowLoopLand b sz me side pos stones land).1
        = (sowLoop b sz me side pos stones).1 ∧
    (sowLoopLand b sz me side pos stones land).2.1
        = (sowLoop b sz me side pos stones).2.1 ∧
    (sowLoopLand b sz me side pos stones land).2.2.1
        = (sowLoop b sz me side pos stones).2.2 := by
  induction b, sz, me, side, pos, stones using sowLoop.induct with
  | case1 b sz me side pos =>
    intro land
    rw [sowLoop, sowLoopLand]
    simp
  | case2 b side pos stones h1 ih =>
    intro land
    rw [sowLoop, sowLoopLand]
    simp only [h1, reduceIte, if_pos rfl]
    exact ih _
  | case3 b me side pos stones h1 h2 ih =>
    intro land
    rw [sowLoop, sowLoopLand]
    simp only [h1, h2, reduceIte, if_pos rfl, if_neg h2]
    exact ih _
  | case4 b sz me side pos stones h1 h2 ih =>
    intro land
    rw [sowLoop, sowLoopLand]
    simp only [h1, h2, reduceIte]
    exact ih _

/-- If the loop halts with `pos = 0` on a row other than the mover's, then
either it never ran (no stones in hand and it started in that state), or
the last stone it placed went into the mover's store. -/
theorem sowLoopLand_store_landing (b : Board) (sz : Nat) (me side : Bool)
    (pos stones : Nat) : ∀ land : Option Landing,
    (sowLoopLand b sz me side pos stones land).2.2.1 = 0 →
    (sowLoopLand b sz me side pos stones land).2.1 ≠ me →
    (stones = 0 ∧ pos = 0 ∧ side ≠ me ∧
      (sowLoopLand b sz me side pos stones land).2.2.2 = land) ∨
    (sowLoopLand b sz me side pos stones land).2.2.2
      = some (Landing.store me) := by
  induction b, sz, me, side, pos, stones using sowLoop.induct with
  | case1 b sz me side pos =>
    intro land hpos hside
    rw [sowLoopLand] at hpos hside ⊢
    simp only [reduceIte] at hpos hside ⊢
    exact Or.inl ⟨trivial, hpos, hside, trivial⟩
  | case2 b side pos stones h1 ih =>
    intro land hpos hside
    rw [sowLoopLand] at hpos hside ⊢
    simp only [h1, reduceIte, if_pos rfl] at hpos hside ⊢
    rcases ih _ hpos hside with ⟨_, _, _, hl⟩ | hl
    · exact Or.inr hl
    · exact Or.inr hl
  | case3 b me side pos stones h1 h2 ih =>
    intro land hpos hside
    rw [sowLoopLand] at hpos hside ⊢
    simp only [h1, h2, reduceIte, if_pos rfl, if_neg h2] at hpos hside ⊢
    rcases ih _ hpos hside with ⟨h0, _, _, _⟩ | hl
    · exact absurd h0 h1
    · exact Or.inr hl
  | case4 b sz me side pos stones h1 h2 ih =>
    intro land hpos hside
    rw [sowLoopLand] at hpos hside ⊢
    simp only [h1, h2, reduceIte] at hpos hside ⊢
    rcases ih _ hpos hside with ⟨_, hp0, _, _⟩ | hl
    · exact absurd hp0 (Nat.succ_ne_zero pos)
    · exact Or.inr hl

/-- The landing place of the last stone of `b.sow side pit`, observed at
the point where the sowing loop of the source finishes. -/
def Board.sowLanding (b : Board) (side : Bool) (pit : Nat) : Option Landing :=
  (sowLoopLand (b.setPit side pit 0) b.size side side (pit + 1)
    (b.pit side pit) none).2.2.2

/-- Claim C5: when `sow` reports `again = true`, the last stone landed in
the mover's own store and the resulting board is not final. -/
theorem sow_again_store_landing (b : Board) (side : Bool) (i : Nat)
    (h : (b.sow side i).2 = true) :
    b.sowLanding side i = some (Landing.store side) ∧
    (b.sow side i).1.is_final = false := by
  simp only [Board.sow] at h ⊢
  set r := sowLoop (b.setPit side i 0) b.size side side (i + 1)
    (b.pit side i) with hr
  by_cases hA : r.2.2 = 0 ∧ ¬ side = r.2.1
  · rw [if_pos hA] at h ⊢
    by_cases hB : r.1.is_final = true
    · rw [if_pos hB] at h
      simp [Board.collect] at h
    · rw [if_neg hB] at h ⊢
      simp only [Bool.not_eq_true] at hB
      refine ⟨?_, by simpa using hB⟩
      have hproj := sowLoopLand_proj (b.setPit side i 0) b.size side side
        (i + 1) (b.pit side i) none
      have hpos : (sowLoopLand (b.setPit side i 0) b.size side side (i + 1)
          (b.pit side i) none).2.2.1 = 0 := by
        rw [hproj.2.2]; exact hA.1
      have hside : (sowLoopLand (b.setPit side i 0) b.size side side (i + 1)
          (b.pit side i) none).2.1 ≠ side := by
        rw [hproj.2.1]; exact fun hc => hA.2 hc.symm
      rcases sowLoopLand_store_landing (b.setPit side i 0) b.size side side
        (i + 1) (b.pit side i) none hpos hside with ⟨_, hp0, _, _⟩ | hl
      · exact absurd hp0 (Nat.succ_ne_zero i)
      · exact hl
  · rw [if_neg hA] at h
    split_ifs at h <;> simp [Board.collect] at h

/-! ### Endgame collection (claim C7) -/

/-- Every final result of `sow` comes out of `Board._collect`, applied to a
board holding the original stone total. -/
theorem sow_final_exit (b : Board) (side : Bool) (i : Nat)
    (hlen : b.south_pits.length = b.north_pits.length)
    (hleg : b.is_legal side i = true)
    (hfin : (b.sow side i).1.is_final = true) :
    ∃ bpre : Board, b.sow side i = bpre.collect ∧
      totalStones bpre = totalStones b := by
  have hpit : 0 < b.pit side i := by
    simpa [Board.is_legal] using hleg
  have hi : i < (b.side side).length := lt_length_of_getD_pos _ _ hpit
  have hsz : (b.side side).length = b.size := by
    cases side <;> simp [Board.side, Board.size, NORTH, hlen]
  have hb1s : (b.setPit side i 0).south_pits.length = b.size := by
    rw [length_south_pits_setPit]
    cases side <;> simp [Board.size, NORTH, hlen]
  have hb1n : (b.setPit side i 0).north_pits.length = b.size := by
    rw [length_north_pits_setPit]; rfl
  have hinit := totalStones_setPit b side i 0 hi
  obtain ⟨ht, hs2, hn2, hp2⟩ := sowLoop_spec (b.setPit side i 0) b.size side
    side (i + 1) (b.pit side i) hb1s hb1n
    (Nat.succ_le_of_lt (hsz ▸ hi))
  simp only [Board.sow] at hfin ⊢
  set r := sowLoop (b.setPit side i 0) b.size side side (i + 1)
    (b.pit side i) with hr
  have htot : totalStones r.1 = totalStones b := by omega
  by_cases hA : r.2.2 = 0 ∧ ¬ side = r.2.1
  · rw [if_pos hA] at hfin ⊢
    by_cases hB : r.1.is_final = true
    · rw [if_pos hB] at hfin ⊢
      exact ⟨r.1, rfl, htot⟩
    · rw [if_neg hB] at hfin
      exact absurd hfin hB
  · rw [if_neg hA] at hfin ⊢
    by_cases hC : r.2.1 = side ∧ 0 < r.2.2
    · rw [if_pos hC] at hfin ⊢
      by_cases hD : r.1.pit r.2.1 (r.2.2 - 1) = 1 ∧
          0 < r.1.pit (!r.2.1) (b.size - 1 - (r.2.2 - 1))
      · rw [if_pos hD] at hfin ⊢
        have hcap : totalStones (r.1.captureStep side (r.2.2 - 1)
            (b.size - 1 - (r.2.2 - 1))) = totalStones r.1 :=
          totalStones_captureStep r.1 side (r.2.2 - 1)
            (b.size - 1 - (r.2.2 - 1)) (hC.1 ▸ hD.1) (hC.1 ▸ hD.2)
        by_cases hE : (r.1.captureStep side (r.2.2 - 1)
            (b.size - 1 - (r.2.2 - 1))).is_final = true
        · rw [if_pos hE] at hfin ⊢
          exact ⟨_, rfl, by rw [hcap]; exact htot⟩
        · rw [if_neg hE] at hfin
          simp only [Bool.not_eq_true] at hE
          simp [hE] at hfin
      · rw [if_neg hD] at hfin ⊢
        by_cases hE : r.1.is_final = true
        · rw [if_pos hE] at hfin ⊢
          exact ⟨r.1, rfl, htot⟩
        · rw [if_neg hE] at hfin
          simp only [Bool.not_eq_true] at hE
          simp [hE] at hfin
    · rw [if_neg hC] at hfin ⊢
      by_cases hE : r.1.is_final = true
      · rw [if_pos hE] at hfin ⊢
        exact ⟨r.1, rfl, htot⟩
      · rw [if_neg hE] at hfin
        simp only [Bool.not_eq_true] at hE
        simp [hE] at hfin

/-- Claim C7: a final `sow` result has every pit at 0, its two stores sum
to the pre-move total, and `again = false`; in particular
`Board(0,0,[0,0,1],[1,1,1]).sow(SOUTH,2)` is `(Board(1,3,[0,0,0],[0,0,0]),
false)` by endgame collection. -/
theorem sow_endgame_collection :
    (∀ (b : Board) (side : Bool) (i : Nat),
      b.south_pits.length = b.north_pits.length →
      b.is_legal side i = true →
      (b.sow side i).1.is_final = true →
      (∀ (s : Bool) (p : Nat), (b.sow side i).1.pit s p = 0) ∧
      (b.sow side i).1.south + (b.sow side i).1.north = totalStones b ∧
      (b.sow side i).2 = false) ∧
    Board.sow ⟨0, 0, [0, 0, 1], [1, 1, 1]⟩ SOUTH 2
      = (⟨1, 3, [0, 0, 0], [0, 0, 0]⟩, false) := by
  constructor
  · intro b side i hlen hleg hfin
    obtain ⟨bpre, heq, htot⟩ := sow_final_exit b side i hlen hleg hfin
    rw [heq]
    refine ⟨?_, ?_, by simp [Board.collect]⟩
    · intro s p
      cases s <;>
        simp [Board.collect, Board.pit, Board.side, NORTH, getD_replicate_zero]
    · rw [totalStones] at htot
      simp only [Board.collect]
      omega
  · simp [Board.sow, sowLoop, Board.setPit, Board.pit, Board.side,
      Board.store, Board.setStore, Board.size, Board.is_final,
      Board.legal_moves, Board.is_legal, Board.collect, Board.captureStep,
      NORTH, SOUTH, List.range_succ]

/-! ### The capture rule (claim C6) -/

theorem collect_pit_zero (b : Board) (s : Bool) (p : Nat) :
    (b.collect).1.pit s p = 0 := by
  cases s <;>
    simp [Board.collect, Board.pit, Board.side, NORTH, getD_replicate_zero]

theorem captureStep_store (b2 : Board) (me : Bool) (last other : Nat) :
    (b2.captureStep me last other).store me
      = b2.store me + b2.pit (!me) other + 1 := by
  rw [Board.captureStep, store_setPit, store_setPit, store_setStore_self]

theorem captureStep_pit_last (b2 : Board) (me : Bool) (last other : Nat)
    (h : last < (b2.side me).length) :
    (b2.captureStep me last other).pit me last = 0 := by
  have hne : (!me) ≠ me := by cases me <;> simp
  rw [Board.captureStep]
  refine pit_setPit_self _ me last 0 ?_
  rw [side_setPit_of_ne _ _ _ _ _ hne, side_setStore]
  exact h

theorem captureStep_pit_other (b2 : Board) (me : Bool) (last other : Nat)
    (h : other < (b2.side (!me)).length) :
    (b2.captureStep me last other).pit (!me) other = 0 := by
  have hne : me ≠ (!me) := by cases me <;> simp
  rw [Board.captureStep, pit_setPit_of_ne _ _ _ _ _ _ hne]
  refine pit_setPit_self _ (!me) other 0 ?_
  rw [side_setStore]
  exact h

/-- Counterexample to claim C6 as stated: on
`Board(0,0,[1,0,9],[0,5,0]).sow(SOUTH,0)` the capture fires (the last
stone lands in south pit 1, which then holds exactly 1, and the opposite
north pit 1 holds 5), the mover's store holds 0 just before the capture,
yet the returned board's south store holds 15, not `0 + 5 + 1 = 6`: the
endgame collection that follows the capture also sweeps south's remaining
pit of 9 stones into the store. -/
theorem sow_capture_exact_gain_counterexample :
    sowLoop ((⟨0, 0, [1, 0, 9], [0, 5, 0]⟩ : Board).setPit SOUTH 0 0)
        (⟨0, 0, [1, 0, 9], [0, 5, 0]⟩ : Board).size SOUTH SOUTH 1
        ((⟨0, 0, [1, 0, 9], [0, 5, 0]⟩ : Board).pit SOUTH 0)
      = (⟨0, 0, [0, 1, 9], [0, 5, 0]⟩, SOUTH, 2) ∧
    (⟨0, 0, [0, 1, 9], [0, 5, 0]⟩ : Board).pit SOUTH (2 - 1) = 1 ∧
    (⟨0, 0, [0, 1, 9], [0, 5, 0]⟩ : Board).pit NORTH
      ((⟨0, 0, [1, 0, 9], [0, 5, 0]⟩ : Board).size - 1 - (2 - 1)) = 5 ∧
    (⟨0, 0, [0, 1, 9], [0, 5, 0]⟩ : Board).store SOUTH = 0 ∧
    Board.sow ⟨0, 0, [1, 0, 9], [0, 5, 0]⟩ SOUTH 0
      = (⟨15, 0, [0, 0, 0], [0, 0, 0]⟩, false) ∧
    (15 : Nat) ≠ 0 + 5 + 1 := by
  refine ⟨?_, by decide, by decide, by decide, ?_, by decide⟩
  · simp [sowLoop, Board.setPit, Board.pit, Board.side, Board.store,
      Board.setStore, Board.size, NORTH, SOUTH]
  · simp [Board.sow, sowLoop, Board.setPit, Board.pit, Board.side,
      Board.store, Board.setStore, Board.size, Board.is_final,
      Board.legal_moves, Board.is_legal, Board.collect, Board.captureStep,
      NORTH, SOUTH, List.range_succ]

/-- Claim C6, amended: when the capture fires, the board produced by the
capture step itself has the landing pit and the opposite pit at 0 and the
mover's store increased by exactly `captured + 1`; in the board `sow`
returns, both pits are likewise 0, but if endgame collection follows the
capture the store may grow further. -/
theorem sow_capture_step (b : Board) (side : Bool) (i : Nat) (b2 : Board)
    (side2 : Bool) (pos2 : Nat)
    (hrun : sowLoop (b.setPit side i 0) b.size side side (i + 1)
      (b.pit side i) = (b2, side2, pos2))
    (hside : side2 = side) (hpos : 0 < pos2)
    (hcap1 : b2.pit side2 (pos2 - 1) = 1)
    (hcap2 : 0 < b2.pit (!side2) (b.size - 1 - (pos2 - 1))) :
    (b2.captureStep side (pos2 - 1) (b.size - 1 - (pos2 - 1))).store side
      = b2.store side + b2.pit (!side) (b.size - 1 - (pos2 - 1)) + 1 ∧
    (b2.captureStep side (pos2 - 1) (b.size - 1 - (pos2 - 1))).pit side
      (pos2 - 1) = 0 ∧
    (b2.captureStep side (pos2 - 1) (b.size - 1 - (pos2 - 1))).pit (!side)
      (b.size - 1 - (pos2 - 1)) = 0 ∧
    (b.sow side i).1.pit side (pos2 - 1) = 0 ∧
    (b.sow side i).1.pit (!side) (b.size - 1 - (pos2 - 1)) = 0 := by
  subst hside
  have hlast : (pos2 - 1) < (b2.side side2).length :=
    lt_length_of_getD_pos _ _ (by rw [Board.pit] at hcap1; omega)
  have hother : (b.size - 1 - (pos2 - 1)) < (b2.side (!side2)).length :=
    lt_length_of_getD_pos _ _ hcap2
  have hpl := captureStep_pit_last b2 side2 (pos2 - 1)
    (b.size - 1 - (pos2 - 1)) hlast
  have hpo := captureStep_pit_other b2 side2 (pos2 - 1)
    (b.size - 1 - (pos2 - 1)) hother
  refine ⟨captureStep_store b2 side2 _ _, hpl, hpo, ?_⟩
  simp only [Board.sow, hrun, not_true, and_false, if_false, true_and]
  have hcap : b2.pit side2 (pos2 - 1) = 1 ∧
      0 < b2.pit (!side2) (b.size - 1 - (pos2 - 1)) := ⟨hcap1, hcap2⟩
  rw [if_pos hpos, if_pos hcap]
  by_cases hE : (b2.captureStep side2 (pos2 - 1)
      (b.size - 1 - (pos2 - 1))).is_final = true
  · rw [if_pos hE]
    exact ⟨collect_pit_zero _ _ _, collect_pit_zero _ _ _⟩
  · rw [if_neg hE]
    exact ⟨hpl, hpo⟩

/-- Claim C10: the `while stones > 0` loop of `Board.sow` terminates; at
most `2 * stones + 1` iterations suffice from any loop state, and from the
initial state of `sow(side, i)` in particular.  (The stone count decreases
on every iteration except the row-end transition away from the mover's
row, which cannot occur twice in a row.) -/
theorem sow_loop_terminates : ∀ (b : Board) (sz : Nat) (me side : Bool)
    (pos stones : Nat),
    sowLoopF (2 * stones + 1) b sz me side pos stones
      = some (sowLoop b sz me side pos stones) ∧
    sowLoopF (2 * b.pit side pos + 1) (b.setPit side pos 0) b.size side side
        (pos + 1) (b.pit side pos)
      = some (sowLoop (b.setPit side pos 0) b.size side side (pos + 1)
        (b.pit side pos)) := by
  intro b sz me side pos stones
  constructor
  · exact sowLoopF_complete _ b sz me side pos stones
      (by by_cases h : side = me <;> simp [h])
  · exact sowLoopF_complete _ _ b.size side side (pos + 1) (b.pit side pos)
      (by simp)

/-! ### Decimal numerals (for the wire form of boards, claims C3 and C8) -/

/-- The Python regex whitespace class `\s`, over ASCII. -/
def isSpaceCh (c : Char) : Bool :=
  c = ' ' || c = '\t' || c = '\n' || c = '\r' || c = '\x0b' || c = '\x0c'

/-- One decimal digit as a character. -/
def digitCh (d : Nat) : Char := Char.ofNat (48 + d)

/-- Conversion `int(token)` on an all-digit token. -/
def charsToNat (cs : List Char) : Nat :=
  cs.foldl (fun a c => 10 * a + (c.toNat - 48)) 0

def natToCharsAux (fuel n : Nat) (acc : List Char) : List Char :=
  match fuel with
  | 0 => acc
  | fuel + 1 =>
    if n = 0 then acc
    else natToCharsAux fuel (n / 10) (digitCh (n % 10) :: acc)

/-- Conversion `str(n)` for a non-negative int: the canonical decimal numeral. -/
def natToChars (n : Nat) : List Char :=
  if n = 0 then ['0'] else natToCharsAux n n []

theorem natToCharsAux_zero (fuel : Nat) (acc : List Char) :
    natToCharsAux fuel 0 acc = acc := by
  cases fuel <;> simp [natToCharsAux]

theorem natToCharsAux_shift (fuel : Nat) : ∀ (n : Nat) (acc : List Char),
    natToCharsAux fuel n acc = natToCharsAux fuel n [] ++ acc := by
  induction fuel with
  | zero => intro n acc; simp [natToCharsAux]
  | succ fuel ih =>
    intro n acc
    by_cases h0 : n = 0
    · simp [natToCharsAux, h0]
    · rw [natToCharsAux, if_neg h0, natToCharsAux, if_neg h0, ih (n / 10),
        ih (n / 10) [digitCh (n % 10)]]
      simp

theorem toNat_digitCh (d : Nat) (h : d < 10) : (digitCh d).toNat = 48 + d := by
  revert d
  decide

theorem isDigit_digitCh (d : Nat) (h : d < 10) :
    (digitCh d).isDigit = true := by
  revert d
  decide

theorem charsToNat_natToCharsAux (fuel : Nat) : ∀ n : Nat, 0 < n → n ≤ fuel →
    charsToNat (natToCharsAux fuel n []) = n := by
  induction fuel with
  | zero => intro n h1 h2; omega
  | succ fuel ih =>
    intro n h1 h2
    rw [natToCharsAux, if_neg (by omega), natToCharsAux_shift]
    have hmod : n % 10 < 10 := Nat.mod_lt n (by omega)
    by_cases hq : n / 10 = 0
    · rw [hq, natToCharsAux_zero]
      simp [charsToNat, toNat_digitCh _ hmod]
      omega
    · have hq2 : n / 10 ≤ fuel := by
        have := Nat.div_lt_self h1 (by omega : (1:Nat) < 10)
        omega
      have := ih (n / 10) (by omega) hq2
      rw [charsToNat, List.foldl_append]
      rw [charsToNat] at this
      rw [this]
      simp [toNat_digitCh _ hmod]
      omega

/-- Round trip `int(str(n)) = n`. -/
theorem charsToNat_natToChars (n : Nat) : charsToNat (natToChars n) = n := by
  by_cases h0 : n = 0
  · subst h0; decide
  · rw [natToChars, if_neg h0]
    exact charsToNat_natToCharsAux n n (by omega) (by omega)

theorem natToCharsAux_digits (fuel : Nat) : ∀ (n : Nat) (acc : List Char),
    (∀ c ∈ acc, c.isDigit = true) →
    ∀ c ∈ natToCharsAux fuel n acc, c.isDigit = true := by
  induction fuel with
  | zero => intro n acc hacc; simpa [natToCharsAux] using hacc
  | succ fuel ih =>
    intro n acc hacc c hc
    by_cases h0 : n = 0
    · rw [natToCharsAux, if_pos h0] at hc
      exact hacc c hc
    · rw [natToCharsAux, if_neg h0] at hc
      refine ih (n / 10) _ ?_ c hc
      intro d hd
      rcases List.mem_cons.1 hd with h | h
      · subst h
        exact isDigit_digitCh _ (Nat.mod_lt n (by omega))
      · exact hacc d h

theorem natToChars_digits (n : Nat) :
    ∀ c ∈ natToChars n, c.isDigit = true := by
  by_cases h0 : n = 0
  · subst h0; decide
  · rw [natToChars, if_neg h0]
    exact natToCharsAux_digits n n [] (by simp)

theorem natToChars_ne_nil (n : Nat) : natToChars n ≠ [] := by
  by_cases h0 : n = 0
  · subst h0; decide
  · obtain ⟨m, rfl⟩ := Nat.exists_eq_succ_of_ne_zero h0
    rw [natToChars, if_neg h0, natToCharsAux, if_neg h0,
      natToCharsAux_shift]
    simp

theorem comma_not_mem_natToChars (n : Nat) : ',' ∉ natToChars n := by
  intro h
  have := natToChars_digits n ',' h
  simp at this

/-! ### Board wire form: parsing and serialisation (claims C3, C8) -/

/-- Splitting `token_run.split(',')`: splits a character run on commas; the result
always has at least one (possibly empty) token. -/
def splitComma : List Char → List (List Char)
  | [] => [[]]
  | c :: rest =>
    if c = ',' then [] :: splitComma rest
    else
      match splitComma rest with
      | t :: ts => (c :: t) :: ts
      | [] => [[c]]

/-- Joining `','.join(tokens)`. -/
def joinComma : List (List Char) → List Char
  | [] => []
  | [t] => t
  | t :: ts => t ++ ',' :: joinComma ts

theorem splitComma_no_comma (t : List Char) (h : ',' ∉ t) :
    splitComma t = [t] := by
  induction t with
  | nil => rfl
  | cons c rest ih =>
    have hc : ¬ c = ',' := fun hc => h (by simp [hc])
    rw [splitComma, if_neg hc, ih (fun hm => h (List.mem_cons_of_mem c hm))]

theorem splitComma_append (t r : List Char) (h : ',' ∉ t) :
    splitComma (t ++ ',' :: r) = t :: splitComma r := by
  induction t with
  | nil => simp [splitComma]
  | cons c rest ih =>
    have hc : ¬ c = ',' := fun hc => h (by simp [hc])
    rw [List.cons_append, splitComma, if_neg hc,
      ih (fun hm => h (List.mem_cons_of_mem c hm))]

theorem splitComma_joinComma (ts : List (List Char)) (hne : ts ≠ [])
    (h : ∀ t ∈ ts, ',' ∉ t) : splitComma (joinComma ts) = ts := by
  induction ts with
  | nil => exact absurd rfl hne
  | cons t ts ih =>
    cases ts with
    | nil => exact splitComma_no_comma t (h t (by simp))
    | cons t2 ts2 =>
      rw [joinComma, splitComma_append t _ (h t (by simp)),
        ih (by simp) (fun u hu => h u (List.mem_cons_of_mem t hu))]
      simp

theorem mem_joinComma (ts : List (List Char)) (c : Char)
    (hc : c ∈ joinComma ts) : c = ',' ∨ ∃ t ∈ ts, c ∈ t := by
  induction ts with
  | nil => simp [joinComma] at hc
  | cons t ts ih =>
    cases ts with
    | nil =>
      rw [joinComma] at hc
      exact Or.inr ⟨t, by simp, hc⟩
    | cons t2 ts2 =>
      rw [joinComma] at hc
      case x_1 => simp
      rcases List.mem_append.1 hc with h | h
      · exact Or.inr ⟨t, by simp, h⟩
      · rcases List.mem_cons.1 h with h | h
        · exact Or.inl h
        · rcases ih h with h | ⟨u, hu, hcu⟩
          · exact Or.inl h
          · exact Or.inr ⟨u, List.mem_cons_of_mem t hu, hcu⟩

/-- The anchored regex `_BOARD_PATTERN = ^(<(\d+(?:,\d+){4,})>)\s*` as a
deterministic scanner.  A match needs a leading `<`; then the maximal run
of digits and commas must be followed by `>` and must consist of at least
five non-empty digit groups (the regex cannot stop earlier inside the run:
the character after a shorter match attempt is a digit or a comma, never
`>`).  Returns group 2 split on commas, and the input left after the `\s*`
that ends the whole pattern. -/
def boardTokens : List Char → Option (List (List Char) × List Char)
  | [] => none
  | c :: rest =>
    if c = '<' then
      match rest.drop (rest.takeWhile (fun d => d.isDigit || d = ',')).length
        with
      | c2 :: rest2 =>
        if c2 = '>' then
          if 5 ≤ (splitComma
                (rest.takeWhile (fun d => d.isDigit || d = ','))).length ∧
              ∀ t ∈ splitComma
                (rest.takeWhile (fun d => d.isDigit || d = ',')), t ≠ [] then
            some (splitComma (rest.takeWhile (fun d => d.isDigit || d = ',')),
              rest2.dropWhile isSpaceCh)
          else none
        else none
      | [] => none
    else none

/-- Outcome of `Board.parse`: a board, `None` (no board), or an
`AssertionError` escaping from `assert match`. -/
inductive ParseResult where
  | ok (b : Board)
  | noBoard
  | assertFail
deriving Repr, DecidableEq

/-- The body of `Board.parse` after the regex match: convert the digit
groups with `int`, unpack `size, south, north, *rest`, check
`len(data) != data[0] * 2 + 2 + 1`, and build the board from `rest[:size]`
and `rest[size:]`.  (The `except ValueError` of the source is dead code:
`int` cannot fail on an all-digit group, so it is not modelled; the
under-three-integers branch is unreachable because the regex requires at
least five groups.) -/
def parseData : List Nat → Option Board
  | size :: south :: north :: rest =>
    if (size :: south :: north :: rest).length ≠ size * 2 + 2 + 1 then none
    else some ⟨south, north, rest.take size, rest.drop size⟩
  | _ => none

/-- Method `Board.parse`: `assert match` raises when the pattern does not match;
otherwise the integer-count check decides between a board and `None`. -/
def Board.parseRes (s : List Char) : ParseResult :=
  match boardTokens s with
  | none => ParseResult.assertFail
  | some (toks, _) =>
    match parseData (toks.map charsToNat) with
    | some b => ParseResult.ok b
    | none => ParseResult.noBoard

/-- Method `Board.__str__`: `<size,south,north,*south_pits,*north_pits>`. -/
def Board.toWire (b : Board) : List Char :=
  '<' :: (joinComma ((b.size :: b.south :: b.north ::
    (b.south_pits ++ b.north_pits)).map natToChars) ++ ['>'])

theorem takeWhile_append_all (p : Char → Bool) (l r : List Char)
    (h : ∀ c ∈ l, p c = true) :
    (l ++ r).takeWhile p = l ++ r.takeWhile p := by
  induction l with
  | nil => rfl
  | cons c cs ih =>
    rw [List.cons_append, List.takeWhile_cons, h c (by simp)]
    simp only [reduceIte]
    rw [ih (fun d hd => h d (List.mem_cons_of_mem c hd))]
    simp

/-- A well-formed wire string in the literal words of claim C3:
angle-bracketed, comma-separated base-10 integer tokens (non-empty digit
strings, leading zeros allowed, which is what the source regex `\d+`
accepts), whose first integer `n` is at least 1 and whose total integer
count is `2n + 3`. -/
def ClaimWellFormedWire (s : List Char) : Prop :=
  ∃ toks : List (List Char),
    (∀ t ∈ toks, t ≠ [] ∧ ∀ c ∈ t, c.isDigit = true) ∧
    1 ≤ (toks.map charsToNat).headD 0 ∧
    toks.length = 2 * (toks.map charsToNat).headD 0 + 3 ∧
    s = '<' :: (joinComma toks ++ ['>'])

/-- The amended domain of claim C3: a well-formed wire string all of whose
integer tokens are canonical decimal numerals (the forms `str` produces,
without leading zeros), first integer `n ≥ 1`, total integer count
`2n + 3`. -/
def WellFormedWire (s : List Char) : Prop :=
  ∃ nums : List Nat, 1 ≤ nums.headD 0 ∧ nums.length = 2 * nums.headD 0 + 3 ∧
    s = '<' :: (joinComma (nums.map natToChars) ++ ['>'])

theorem boardTokens_wellFormed (nums : List Nat) (hne : nums ≠ [])
    (hlen : 5 ≤ nums.length) :
    boardTokens ('<' :: (joinComma (nums.map natToChars) ++ ['>']))
      = some (nums.map natToChars, []) := by
  have htoksne : nums.map natToChars ≠ [] := by
    simpa using hne
  have hnocomma : ∀ t ∈ nums.map natToChars, ',' ∉ t := by
    intro t ht
    obtain ⟨n, _, rfl⟩ := List.mem_map.1 ht
    exact comma_not_mem_natToChars n
  have hrunchars : ∀ c ∈ joinComma (nums.map natToChars),
      (c.isDigit || c = ',') = true := by
    intro c hc
    rcases mem_joinComma _ c hc with rfl | ⟨t, ht, hct⟩
    · simp
    · obtain ⟨n, _, rfl⟩ := List.mem_map.1 ht
      simp [natToChars_digits n c hct]
  have hrun : (joinComma (nums.map natToChars) ++ ['>']).takeWhile
      (fun d => d.isDigit || d = ',') = joinComma (nums.map natToChars) := by
    rw [takeWhile_append_all _ _ _ hrunchars]
    simp [List.takeWhile_cons]
  have hsplit : splitComma (joinComma (nums.map natToChars))
      = nums.map natToChars :=
    splitComma_joinComma _ htoksne hnocomma
  rw [boardTokens, if_pos rfl]
  simp only [hrun, hsplit, List.drop_left, reduceIte, if_true]
  rw [if_pos ⟨by simpa using hlen, fun t ht =>
    (by obtain ⟨n, _, rfl⟩ := List.mem_map.1 ht; exact natToChars_ne_nil n)⟩]
  simp [List.dropWhile]

/-- Counterexample to claim C3 as stated: `<3,04,5,1,2,3,6,7,8>` is
well formed in the claim's own words (angle-bracketed, comma-separated
base-10 integers, first integer 3, count 9 = 2*3+3), and the source
parses it (the regex `\d+` accepts the leading zero and `int("04")` is
4), but serialising the parsed board yields the canonical
`<3,4,5,1,2,3,6,7,8>`, not the original string: the round trip fails. -/
theorem parse_serialise_roundtrip_counterexample :
    ClaimWellFormedWire ("<3,04,5,1,2,3,6,7,8>".data) ∧
    Board.parseRes ("<3,04,5,1,2,3,6,7,8>".data)
      = ParseResult.ok ⟨4, 5, [1, 2, 3], [6, 7, 8]⟩ ∧
    (⟨4, 5, [1, 2, 3], [6, 7, 8]⟩ : Board).toWire
      = "<3,4,5,1,2,3,6,7,8>".data ∧
    (⟨4, 5, [1, 2, 3], [6, 7, 8]⟩ : Board).toWire
      ≠ "<3,04,5,1,2,3,6,7,8>".data := by
  refine ⟨⟨[['3'], ['0', '4'], ['5'], ['1'], ['2'], ['3'], ['6'], ['7'],
    ['8']], by decide, by decide, by decide, by decide⟩,
    by decide, by decide, by decide⟩

/-- Claim C3, amended: parsing a well-formed wire string whose integer
tokens are canonical decimal numerals (no leading zeros) yields a board
whose serialisation reproduces the string exactly; with a leading-zero
token the parse still succeeds but serialisation yields the canonical
form instead. -/
theorem parse_serialise_roundtrip (s : List Char) (h : WellFormedWire s) :
    ∃ b : Board, Board.parseRes s = ParseResult.ok b ∧ b.toWire = s := by
  obtain ⟨nums, h1, hlen, rfl⟩ := h
  have hge : 5 ≤ nums.length := by omega
  have hne : nums ≠ [] := by
    intro hc; rw [hc] at hge; simp at hge
  have hbt := boardTokens_wellFormed nums hne hge
  have hdata : (nums.map natToChars).map charsToNat = nums := by
    rw [List.map_map]
    have : nums.map (charsToNat ∘ natToChars) = nums.map id :=
      List.map_congr_left (fun a _ => charsToNat_natToChars a)
    simpa using this
  obtain ⟨n0, rest1⟩ : ∃ n0 rest1, nums = n0 :: rest1 := by
    cases nums with
    | nil => simp at hge
    | cons a l => exact ⟨a, l, rfl⟩
  obtain ⟨rest1, rfl⟩ := rest1
  obtain ⟨sv, nv, rest, rfl⟩ : ∃ sv nv rest, rest1 = sv :: nv :: rest := by
    cases rest1 with
    | nil => simp at hge
    | cons a l =>
      cases l with
      | nil => simp at hge
      | cons a2 l2 => exact ⟨a, a2, l2, rfl⟩
  simp only [List.headD_cons] at h1 hlen
  have hrest : rest.length = 2 * n0 := by
    simp only [List.length_cons] at hlen
    omega
  have hcount : (n0 :: sv :: nv :: rest).length = n0 * 2 + 2 + 1 := by
    simp only [List.length_cons]
    omega
  refine ⟨⟨sv, nv, rest.take n0, rest.drop n0⟩, ?_, ?_⟩
  · rw [Board.parseRes, hbt]
    simp only [hdata]
    rw [parseData, if_neg (by simp [hcount])]
  · rw [Board.toWire]
    have hsize : (⟨sv, nv, rest.take n0, rest.drop n0⟩ : Board).size = n0 := by
      simp only [Board.size]
      rw [List.length_drop]
      omega
    rw [hsize]
    simp only
    rw [List.take_append_drop]

theorem boardTokens_sound (s : List Char) (toks : List (List Char))
    (rest : List Char) (h : boardTokens s = some (toks, rest)) :
    5 ≤ toks.length := by
  cases s with
  | nil => simp [boardTokens] at h
  | cons c rest0 =>
    rw [boardTokens] at h
    by_cases hc : c = '<'
    · rw [if_pos hc] at h
      rcases hd : rest0.drop
          (rest0.takeWhile (fun d => d.isDigit || d = ',')).length with
        _ | ⟨c2, rest2⟩
      · rw [hd] at h; simp at h
      · rw [hd] at h
        dsimp only at h
        by_cases hc2 : c2 = '>'
        · rw [if_pos hc2] at h
          by_cases hcond : 5 ≤ (splitComma
                (rest0.takeWhile (fun d => d.isDigit || d = ','))).length ∧
              ∀ t ∈ splitComma
                (rest0.takeWhile (fun d => d.isDigit || d = ',')), t ≠ []
          · rw [if_pos hcond] at h
            have htoks : splitComma
                (rest0.takeWhile (fun d => d.isDigit || d = ',')) = toks := by
              have := Option.some.inj h
              exact congrArg Prod.fst this
            rw [← htoks]
            exact hcond.1
          · rw [if_neg hcond] at h; simp at h
        · rw [if_neg hc2] at h; simp at h
    · rw [if_neg hc] at h; simp at h

/-- Counterexample to claim C8 as stated: `Board.parse` does not yield
"no board" on every malformed input.  On `1,1,1,1,1` (missing angle
brackets) and on `<1,a,1,1,1>` (a non-integer token) the regex fails to
match, so `assert match` raises an `AssertionError` instead of the
procedure returning `None`. -/
theorem parse_failure_counterexample :
    Board.parseRes ("1,1,1,1,1".data) = ParseResult.assertFail ∧
    Board.parseRes ("<1,a,1,1,1>".data) = ParseResult.assertFail ∧
    ParseResult.assertFail ≠ ParseResult.noBoard := by
  refine ⟨by decide, by decide, by decide⟩

/-- Claim C8, amended: `Board.parse` yields no board (returns `None`)
exactly when the wire pattern matches but the integer count differs from
`2n + 3`; when the outer delimiters are missing or some token is not a
base-10 integer the pattern match fails and the `assert match` raises an
`AssertionError` instead. -/
theorem parse_failure_modes :
    (∀ (s : List Char) (toks : List (List Char)) (rest : List Char),
      boardTokens s = some (toks, rest) →
      (toks.map charsToNat).length
        ≠ (toks.map charsToNat).headD 0 * 2 + 2 + 1 →
      Board.parseRes s = ParseResult.noBoard) ∧
    (∀ s : List Char, boardTokens s = none →
      Board.parseRes s = ParseResult.assertFail) := by
  constructor
  · intro s toks rest h hmis
    have h5 := boardTokens_sound s toks rest h
    have hlen3 : 3 ≤ (toks.map charsToNat).length := by
      simp only [List.length_map]
      omega
    obtain ⟨d0, d1, d2, r2, hd⟩ : ∃ a b c r,
        toks.map charsToNat = a :: b :: c :: r := by
      rcases hL : toks.map charsToNat with _ | ⟨a, _ | ⟨b, _ | ⟨c, r⟩⟩⟩ <;>
        rw [hL] at hlen3
      · simp at hlen3
      · simp at hlen3
      · simp at hlen3
      · exact ⟨a, b, c, r, rfl⟩
    rw [Board.parseRes, h]
    dsimp only
    rw [hd]
    rw [hd] at hmis
    simp only [List.headD_cons] at hmis
    rw [parseData, if_pos hmis]
  · intro s h
    rw [Board.parseRes, h]

/-! ### The argument tokeniser `split` (claim C9) -/

/-- A parsed protocol argument.  `float` keeps the matched token text: the
source would call `float(token)`, but (as proved below) the float branch is
unreachable, so no IEEE semantics is needed.  `board` holds the result of
`Board.parse` on the matched literal, which can be `None`. -/
inductive Arg where
  | str (cs : List Char)
  | int (n : Nat)
  | float (cs : List Char)
  | board (b : Option Board)
deriving Repr, DecidableEq

def Arg.isFloat : Arg → Bool
  | Arg.float _ => true
  | _ => false

/-- De-escaping `re.sub(r'\\(.)', '\\1', arg)`: drop each backslash that still has a
following character. -/
def unescape : List Char → List Char
  | [] => []
  | c :: rest =>
    if c = '\\' then
      match rest with
      | c2 :: rest2 => c2 :: unescape rest2
      | [] => [c]
    else c :: unescape rest

/-- The body of the string pattern `"((?:\\.|[^"])*)"` after the opening
quote, with the regex engine's backtracking order: an escape pair first,
then any non-quote character, then (closing the star) the quote itself.
Returns group 1 and the input after the closing quote. -/
def strBody : List Char → Option (List Char × List Char)
  | [] => none
  | c :: rest =>
    if c = '\\' then
      match rest with
      | c2 :: rest2 =>
        match strBody rest2 with
        | some (g, r) => some (c :: c2 :: g, r)
        | none =>
          match strBody (c2 :: rest2) with
          | some (g, r) => some (c :: g, r)
          | none => none
      | [] => none
    else if c = '\"' then some ([], rest)
    else
      match strBody rest with
      | some (g, r) => some (c :: g, r)
      | none => none
termination_by l => l.length
decreasing_by
· simp; omega
· simp
· simp

/-- Pattern `STRING_PATTERN = ^"((?:\\.|[^"])*)"\s*`. -/
def stringMatch : List Char → Option (List Char × List Char)
  | [] => none
  | c :: rest =>
    if c = '\"' then
      match strBody rest with
      | some (g, r) => some (g, r.dropWhile isSpaceCh)
      | none => none
    else none

/-- Pattern `INTEGER_PATTERN = ^(\d+)\s*`, with `int` applied to group 1. -/
def intMatch (l : List Char) : Option (Nat × List Char) :=
  if (l.takeWhile Char.isDigit).isEmpty then none
  else some (charsToNat (l.takeWhile Char.isDigit),
    (l.drop (l.takeWhile Char.isDigit).length).dropWhile isSpaceCh)

/-- Pattern `FLOAT_PATTERN = ^(\d+(?:\.\d+)?)\s*`; the token text of group 1. -/
def floatMatch (l : List Char) : Option (List Char × List Char) :=
  if (l.takeWhile Char.isDigit).isEmpty then none
  else
    match l.drop (l.takeWhile Char.isDigit).length with
    | c :: rest2 =>
      if c = '.' ∧ ¬ (rest2.takeWhile Char.isDigit).isEmpty then
        some (l.takeWhile Char.isDigit ++ '.' :: rest2.takeWhile Char.isDigit,
          (rest2.drop (rest2.takeWhile Char.isDigit).length).dropWhile
            isSpaceCh)
      else some (l.takeWhile Char.isDigit,
        (l.drop (l.takeWhile Char.isDigit).length).dropWhile isSpaceCh)
    | [] => some (l.takeWhile Char.isDigit,
        (l.drop (l.takeWhile Char.isDigit).length).dropWhile isSpaceCh)

/-- Pattern `BOARD_PATTERN` is `_BOARD_PATTERN`; group 1 (the bracketed literal)
goes through `Board.parse`, whose count check may yield `None`. -/
def boardMatch (l : List Char) : Option (Option Board × List Char) :=
  match boardTokens l with
  | some (toks, rest) => some (parseData (toks.map charsToNat), rest)
  | none => none

theorem dropWhile_length_le (p : Char → Bool) (l : List Char) :
    (l.dropWhile p).length ≤ l.length :=
  (List.dropWhile_sublist (l := l) p).length_le

theorem strBody_length_aux : ∀ (n : Nat) (l : List Char), l.length = n →
    ∀ g r, strBody l = some (g, r) → r.length < l.length := by
  intro n
  induction n using Nat.strong_induction_on with
  | _ n ih =>
    intro l hl g r h
    cases l with
    | nil =>
      rw [strBody.eq_def] at h
      simp at h
    | cons c rest =>
      rw [strBody.eq_def] at h
      dsimp only at h
      by_cases hc : c = '\\'
      · rw [if_pos hc] at h
        cases rest with
        | nil => simp at h
        | cons c2 rest2 =>
          dsimp only at h
          rcases h2 : strBody rest2 with _ | ⟨g2, r2⟩
          · rw [h2] at h
            dsimp only at h
            rcases h3 : strBody (c2 :: rest2) with _ | ⟨g3, r3⟩
            · rw [h3] at h; simp at h
            · rw [h3] at h
              dsimp only at h
              have hr : r3 = r := congrArg Prod.snd (Option.some.inj h)
              subst hr
              have := ih (c2 :: rest2).length (by rw [← hl]; simp)
                (c2 :: rest2) rfl g3 r3 h3
              simp only [List.length_cons] at *
              omega
          · rw [h2] at h
            dsimp only at h
            have hr : r2 = r := congrArg Prod.snd (Option.some.inj h)
            subst hr
            have := ih rest2.length (by rw [← hl]; simp; omega) rest2 rfl
              g2 r2 h2
            simp only [List.length_cons] at *
            omega
      · rw [if_neg hc] at h
        by_cases hq : c = '\"'
        · rw [if_pos hq] at h
          have hr : rest = r := congrArg Prod.snd (Option.some.inj h)
          subst hr
          simp only [List.length_cons]
          omega
        · rw [if_neg hq] at h
          rcases h3 : strBody rest with _ | ⟨g3, r3⟩
          · rw [h3] at h; simp at h
          · rw [h3] at h
            dsimp only at h
            have hr : r3 = r := congrArg Prod.snd (Option.some.inj h)
            subst hr
            have := ih rest.length (by rw [← hl]; simp) rest rfl g3 r3 h3
            simp only [List.length_cons] at *
            omega

theorem strBody_length (l : List Char) (g r : List Char)
    (h : strBody l = some (g, r)) : r.length < l.length :=
  strBody_length_aux l.length l rfl g r h

theorem stringMatch_length (l : List Char) (g r : List Char)
    (h : stringMatch l = some (g, r)) : r.length < l.length := by
  cases l with
  | nil => simp [stringMatch] at h
  | cons c rest =>
    rw [stringMatch] at h
    by_cases hc : c = '\"'
    · rw [if_pos hc] at h
      rcases h2 : strBody rest with _ | ⟨g2, r2⟩
      · rw [h2] at h; simp at h
      · rw [h2] at h
        dsimp only at h
        have hr : r2.dropWhile isSpaceCh = r :=
          congrArg Prod.snd (Option.some.inj h)
        have h3 := strBody_length rest g2 r2 h2
        have h4 := dropWhile_length_le isSpaceCh r2
        rw [hr] at h4
        simp only [List.length_cons]
        omega
    · rw [if_neg hc] at h; simp at h

theorem takeWhile_ne_nil_length (p : Char → Bool) (l : List Char)
    (h : ¬ (l.takeWhile p).isEmpty = true) :
    0 < (l.takeWhile p).length ∧ (l.takeWhile p).length ≤ l.length := by
  constructor
  · rcases he : l.takeWhile p with _ | ⟨a, t⟩
    · rw [he] at h; simp at h
    · simp
  · exact (List.takeWhile_sublist (l := l) p).length_le

theorem intMatch_length (l : List Char) (n : Nat) (r : List Char)
    (h : intMatch l = some (n, r)) : r.length < l.length := by
  rw [intMatch] at h
  by_cases he : (l.takeWhile Char.isDigit).isEmpty
  · rw [if_pos he] at h; simp at h
  · rw [if_neg he] at h
    have hr : (l.drop (l.takeWhile Char.isDigit).length).dropWhile isSpaceCh
        = r := congrArg Prod.snd (Option.some.inj h)
    obtain ⟨h1, h2⟩ := takeWhile_ne_nil_length Char.isDigit l he
    have h3 := dropWhile_length_le isSpaceCh
      (l.drop (l.takeWhile Char.isDigit).length)
    rw [hr] at h3
    rw [List.length_drop] at h3
    omega

theorem floatMatch_length (l : List Char) (t : List Char) (r : List Char)
    (h : floatMatch l = some (t, r)) : r.length < l.length := by
  rw [floatMatch] at h
  by_cases he : (l.takeWhile Char.isDigit).isEmpty
  · rw [if_pos he] at h; simp at h
  · rw [if_neg he] at h
    obtain ⟨h1, h2⟩ := takeWhile_ne_nil_length Char.isDigit l he
    rcases hd : l.drop (l.takeWhile Char.isDigit).length with _ | ⟨c, rest2⟩
    · rw [hd] at h
      dsimp only at h
      have hr : List.dropWhile isSpaceCh [] = r :=
        congrArg Prod.snd (Option.some.inj h)
      have hr2 : r = [] := by simpa using hr.symm
      rw [hr2]
      simp only [List.length_nil]
      omega
    · rw [hd] at h
      dsimp only at h
      have hdl : (l.drop (l.takeWhile Char.isDigit).length).length
          = l.length - (l.takeWhile Char.isDigit).length :=
        List.length_drop _ _
      by_cases hdot : c = '.' ∧ ¬ (rest2.takeWhile Char.isDigit).isEmpty = true
      · rw [if_pos hdot] at h
        have hr : (rest2.drop
            (rest2.takeWhile Char.isDigit).length).dropWhile isSpaceCh = r :=
          congrArg Prod.snd (Option.some.inj h)
        have h3 := dropWhile_length_le isSpaceCh
          (rest2.drop (rest2.takeWhile Char.isDigit).length)
        rw [hr, List.length_drop] at h3
        have h4 : rest2.length + 1 = l.length
            - (l.takeWhile Char.isDigit).length := by
          rw [← hdl, hd]
          simp
        omega
      · rw [if_neg hdot] at h
        have hr : List.dropWhile isSpaceCh (c :: rest2) = r :=
          congrArg Prod.snd (Option.some.inj h)
        have h3 := dropWhile_length_le isSpaceCh (c :: rest2)
        rw [hr] at h3
        rw [hd] at hdl
        simp only [List.length_cons] at h3 hdl
        omega

theorem boardTokens_length (l : List Char) (toks : List (List Char))
    (r : List Char) (h : boardTokens l = some (toks, r)) :
    r.length < l.length := by
  cases l with
  | nil => simp [boardTokens] at h
  | cons c rest0 =>
    rw [boardTokens] at h
    by_cases hc : c = '<'
    · rw [if_pos hc] at h
      rcases hd : rest0.drop
          (rest0.takeWhile (fun d => d.isDigit || d = ',')).length with
        _ | ⟨c2, rest2⟩
      · rw [hd] at h; simp at h
      · rw [hd] at h
        dsimp only at h
        by_cases hc2 : c2 = '>'
        · rw [if_pos hc2] at h
          by_cases hcond : 5 ≤ (splitComma
                (rest0.takeWhile (fun d => d.isDigit || d = ','))).length ∧
              ∀ t ∈ splitComma
                (rest0.takeWhile (fun d => d.isDigit || d = ',')), t ≠ []
          · rw [if_pos hcond] at h
            have hr : rest2.dropWhile isSpaceCh = r :=
              congrArg Prod.snd (Option.some.inj h)
            have h3 := dropWhile_length_le isSpaceCh rest2
            rw [hr] at h3
            have h5 : (rest0.drop (rest0.takeWhile
                (fun d => d.isDigit || d = ',')).length).length
                ≤ rest0.length := by
              rw [List.length_drop]; omega
            rw [hd] at h5
            simp only [List.length_cons] at h5 ⊢
            omega
          · rw [if_neg hcond] at h; simp at h
        · rw [if_neg hc2] at h; simp at h
    · rw [if_neg hc] at h; simp at h

theorem boardMatch_length (l : List Char) (ob : Option Board)
    (r : List Char) (h : boardMatch l = some (ob, r)) :
    r.length < l.length := by
  rw [boardMatch] at h
  rcases hb : boardTokens l with _ | ⟨toks, rest⟩
  · rw [hb] at h; simp at h
  · rw [hb] at h
    dsimp only at h
    have hr : rest = r := congrArg Prod.snd (Option.some.inj h)
    rw [← hr]
    exact boardTokens_length l toks rest hb

/-- The argument tokeniser `split`: repeatedly try, in the source's
priority order, the string, integer, float and board patterns at the
current position; stop at the first position where none matches. -/
def split (l : List Char) : List Arg :=
  match hs : stringMatch l with
  | some (g, r) => Arg.str (unescape g) :: split r
  | none =>
    match hi : intMatch l with
    | some (n, r) => Arg.int n :: split r
    | none =>
      match hf : floatMatch l with
      | some (t, r) => Arg.float t :: split r
      | none =>
        match hb : boardMatch l with
        | some (ob, r) => Arg.board ob :: split r
        | none => []
termination_by l.length
decreasing_by
· exact stringMatch_length l g r hs
· exact intMatch_length l n r hi
· exact floatMatch_length l t r hf
· exact boardMatch_length l ob r hb

theorem floatMatch_none_of_intMatch_none (l : List Char)
    (h : intMatch l = none) : floatMatch l = none := by
  rw [intMatch] at h
  by_cases he : (l.takeWhile Char.isDigit).isEmpty
  · rw [floatMatch, if_pos he]
  · rw [if_neg he] at h; simp at h

theorem split_no_float_aux : ∀ (n : Nat) (l : List Char), l.length = n →
    ((split l).all fun a => !a.isFloat) = true := by
  intro n
  induction n using Nat.strong_induction_on with
  | _ n ih =>
    intro l hl
    rw [split.eq_def]
    rcases hs : stringMatch l with _ | ⟨g, r⟩
    · dsimp only
      rcases hi : intMatch l with _ | ⟨m, r⟩
      · dsimp only
        rcases hf : floatMatch l with _ | ⟨t, r⟩
        · dsimp only
          rcases hb : boardMatch l with _ | ⟨ob, r⟩
          · rfl
          · dsimp only
            have hlt := boardMatch_length l ob r hb
            have hrec := ih r.length (by omega) r rfl
            rw [List.all_cons,
              show (Arg.board ob).isFloat = false from rfl, hrec]
            rfl
        · exact absurd hf (by rw [floatMatch_none_of_intMatch_none l hi]; simp)
      · dsimp only
        have hlt := intMatch_length l m r hi
        have hrec := ih r.length (by omega) r rfl
        rw [List.all_cons, show (Arg.int m).isFloat = false from rfl, hrec]
        rfl
    · dsimp only
      have hlt := stringMatch_length l g r hs
      have hrec := ih r.length (by omega) r rfl
      rw [List.all_cons,
        show (Arg.str (unescape g)).isFloat = false from rfl, hrec]
      rfl

/-- Claim C9: the tokeniser never produces a float.  `INTEGER_PATTERN` is
tried before `FLOAT_PATTERN` and both require a leading digit, so on
`"3.14"` the integer pattern consumes `3`, tokenisation then stops at
`".14"`, and the parsed list is `[3]`, not `[3.14]`; the float branch of
`split` is unreachable on every input.  A dotless numeral is parsed as an
integer, as the claim says. -/
theorem split_float_dead :
    split ("3.14".data) = [Arg.int 3] ∧
    split ("42".data) = [Arg.int 42] ∧
    ∀ l : List Char, ((split l).all fun a => !a.isFloat) = true := by
  refine ⟨?_, ?_, fun l => split_no_float_aux l.length l rfl⟩
  · simp [split, stringMatch, intMatch, floatMatch, boardMatch, boardTokens,
      strBody, charsToNat, isSpaceCh, List.takeWhile, List.dropWhile]
  · simp [split, stringMatch, intMatch, floatMatch, boardMatch, boardTokens,
      strBody, charsToNat, isSpaceCh, List.takeWhile, List.dropWhile]

/-! ### The session dispatcher `handle` (claim C2) and the worker
`query` (claim C1) -/

/-- An outbound message as produced by `send`: the session-assigned id,
the reference actually attached, the command word and the arguments. -/
structure Sent where
  sid : Nat
  ref : Option Nat
  cmd : String
  args : List Arg
deriving Repr, DecidableEq

/-- The reference attached by `send`: `if ref:` drops both `None` and
`0`. -/
def refOf : Option Nat → Option Nat
  | none => none
  | some k => if k = 0 then none else some k

/-- Client configuration: the `name`, `authors` and `token` arguments of
`connect` (`cname` models `name`). -/
structure Cfg where
  cname : Option String
  authors : List String
  token : Option String

/-- Dispatcher state: the next outbound id (odd, starting at 1), the
messages sent so far in queue order, the request-table keys (`threads`),
and whether `handle` has returned (after `goodbye`). -/
structure Session where
  nextId : Nat
  sent : List Sent
  threads : List (Option Nat)
  done : Bool
deriving Repr, DecidableEq

def initSession : Session := ⟨1, [], [], false⟩

/-- Sending `send(cmd, *args, ref)`: use the current id, enqueue the message,
advance the id by 2. -/
def sendMsg (s : Session) (ref : Option Nat) (cmd : String)
    (args : List Arg) : Session :=
  { s with nextId := s.nextId + 2,
           sent := s.sent ++ [⟨s.nextId, refOf ref, cmd, args⟩] }

/-- Joining `','.join(authors)`. -/
def joinCommaStr (l : List String) : List Char :=
  joinComma (l.map String.data)

/-- One inbound command, as parsed by `COMMAND_PATTERN` and `split`:
optional id, optional reference, command word, arguments. -/
structure InCmd where
  cid : Option Nat
  ref : Option Nat
  cmd : String
  args : List Arg
deriving Repr, DecidableEq

/-- One iteration of the dispatch loop of `handle` on a parsed command.
The `raise ValueError()` of the `kgp` branch is caught by the loop's
`except ValueError: pass`, so it only aborts the current command; the
unpack `major, _minor, _patch = args` likewise raises (caught) when the
argument count is not 3.  Workers spawned by `state` run in separate
processes; only the request-table bookkeeping belongs to the dispatcher
and is modelled here.  (Two source paths outside every claim are not
modelled: a `kgp` whose first argument is a parsed board raises an
uncaught `AttributeError` inside `Board.__eq__`, and a `state` with no
arguments raises an uncaught `IndexError`; floats never occur in argument
lists, see `split_float_dead`.) -/
def handleCmd (cfg : Cfg) (s : Session) (c : InCmd) : Session :=
  if c.cmd = "kgp" then
    match c.args with
    | [major, _minor, _patch] =>
      if major ≠ Arg.int 1 then
        sendMsg s c.cid "error" [Arg.str ("protocol not supported".data)]
      else
        let s1 := match cfg.cname with
          | some nm => sendMsg s none "set"
              [Arg.str ("info:name".data), Arg.str nm.data]
          | none => s
        let s2 := if cfg.authors ≠ [] then
            sendMsg s1 none "set" [Arg.str ("info:authors".data),
              Arg.str (joinCommaStr cfg.authors)]
          else s1
        let s3 := match cfg.token with
          | some tk => sendMsg s2 none "set"
              [Arg.str ("auth:token".data), Arg.str tk.data]
          | none => s2
        sendMsg s3 none "mode" [Arg.str ("freeplay".data)]
    | _ => s
  else if c.cmd = "state" then
    match c.args with
    | _ :: _ =>
      if c.cid ∈ s.threads then s
      else { s with threads := c.cid :: s.threads }
    | [] => s
  else if c.cmd = "stop" then
    match c.ref with
    | some k =>
      if k ≠ 0 ∧ some k ∈ s.threads then
        { s with threads := s.threads.erase (some k) }
      else s
    | none => s
  else if c.cmd = "ok" then s
  else if c.cmd = "error" then s
  else if c.cmd = "ping" then
    match c.args with
    | a :: _ => sendMsg s c.cid "pong" [a]
    | [] => sendMsg s c.cid "pong" []
  else if c.cmd = "goodbye" then { s with done := true }
  else s

/-- The `for line in read()` loop of `handle` over parsed commands; a
`goodbye` makes `handle` return, so nothing after it is processed. -/
def runSession (cfg : Cfg) (s : Session) : List InCmd → Session
  | [] => s
  | c :: cs => if s.done then s else runSession cfg (handleCmd cfg s c) cs

/-- Counterexample to claim C2 as stated: after the client rejects
`kgp 2 0 0` with an `error "protocol not supported"` reply (and without
emitting `mode`), the session does *not* terminate — the raised
`ValueError` is caught by the dispatch loop's `except ValueError: pass`
and a subsequent `ping` is still answered with a `pong`. -/
theorem kgp_reject_counterexample :
    runSession ⟨none, [], none⟩ initSession
        [⟨some 2, none, "kgp", [Arg.int 2, Arg.int 0, Arg.int 0]⟩,
         ⟨some 4, none, "ping", []⟩]
      = ⟨5, [⟨1, some 2, "error", [Arg.str ("protocol not supported".data)]⟩,
             ⟨3, some 4, "pong", []⟩], [], false⟩ ∧
    (⟨3, some 4, "pong", []⟩ : Sent) ∈ (runSession ⟨none, [], none⟩
      initSession
        [⟨some 2, none, "kgp", [Arg.int 2, Arg.int 0, Arg.int 0]⟩,
         ⟨some 4, none, "ping", []⟩]).sent ∧
    (runSession ⟨none, [], none⟩ initSession
        [⟨some 2, none, "kgp", [Arg.int 2, Arg.int 0, Arg.int 0]⟩,
         ⟨some 4, none, "ping", []⟩]).done = false := by
  refine ⟨by decide, by decide, by decide⟩

/-- Claim C2, amended: on an inbound `kgp M m p` with integer `M ≠ 1` the
client sends exactly one `error "protocol not supported"` reply
referencing the server's id (when present and non-zero) and aborts the
rest of the handshake handler, so no `mode` is emitted for that command;
but the session does not terminate: the dispatch loop catches the raised
`ValueError` and continues with the next inbound command. -/
theorem kgp_reject (cfg : Cfg) (s : Session) (cid ref : Option Nat)
    (M : Nat) (a2 a3 : Arg) (hM : M ≠ 1) :
    handleCmd cfg s ⟨cid, ref, "kgp", [Arg.int M, a2, a3]⟩
      = ⟨s.nextId + 2,
          s.sent ++ [⟨s.nextId, refOf cid, "error",
            [Arg.str ("protocol not supported".data)]⟩],
          s.threads, s.done⟩ ∧
    (handleCmd cfg s ⟨cid, ref, "kgp", [Arg.int M, a2, a3]⟩).done
      = s.done ∧
    ∀ (c2 : InCmd) (cs : List InCmd), s.done = false →
      runSession cfg s (⟨cid, ref, "kgp", [Arg.int M, a2, a3]⟩ :: c2 :: cs)
        = runSession cfg
            (handleCmd cfg s ⟨cid, ref, "kgp", [Arg.int M, a2, a3]⟩)
            (c2 :: cs) := by
  have hMa : (Arg.int M ≠ Arg.int 1) := by
    intro hc
    exact hM (by injection hc)
  have h1 : handleCmd cfg s ⟨cid, ref, "kgp", [Arg.int M, a2, a3]⟩
      = ⟨s.nextId + 2,
          s.sent ++ [⟨s.nextId, refOf cid, "error",
            [Arg.str ("protocol not supported".data)]⟩],
          s.threads, s.done⟩ := by
    rw [handleCmd]
    dsimp only
    rw [if_pos rfl, if_pos hMa]
    rfl
  refine ⟨h1, by rw [h1], ?_⟩
  intro c2 cs hdone
  rw [runSession, if_neg (by rw [hdone]; exact Bool.false_ne_true)]

/-! ### The worker procedure `query` (claim C1) -/

/-- A message a worker emits (through the shared queue): `move` with the
1-indexed pit, or `yield`, both referencing the originating `state` id. -/
inductive Msg where
  | move (m : Int) (ref : Option Nat)
  | yld (ref : Option Nat)
deriving Repr, DecidableEq

/-- The `for move in agent(state)` loop of `query`, with its `else:`
clause sending `yield` when the stream is exhausted; `last` deduplicates
consecutive equal moves.  The agent's move stream is modelled as a list of
ints, so `type(move) is int` always holds. -/
def queryLoop (cid : Option Nat) : Option Int → List Int → List Msg
  | _, [] => [Msg.yld cid]
  | last, m :: ms =>
    if some m ≠ last then Msg.move (m + 1) cid :: queryLoop cid (some m) ms
    else queryLoop cid last ms

/-- Procedure `query(state, cid)` run against a move stream: the sequence of
messages the worker sends. -/
def query (state : Board) (cid : Option Nat) (moves : List Int) :
    List Msg :=
  if state.is_final then [] else queryLoop cid none moves

/-- Counterexample to claim C1 as stated: on the final board
`Board(4,5,[0,0,0],[6,7,8])` the worker emits nothing at all — in
particular no `yield @r` — because `query` returns before the send. -/
theorem query_final_counterexample :
    (⟨4, 5, [0, 0, 0], [6, 7, 8]⟩ : Board).is_final = true ∧
    query ⟨4, 5, [0, 0, 0], [6, 7, 8]⟩ (some 7) [0, 1, 2] = [] ∧
    query ⟨4, 5, [0, 0, 0], [6, 7, 8]⟩ (some 7) [0, 1, 2]
      ≠ [Msg.yld (some 7)] := by
  refine ⟨by decide, by decide, by decide⟩

/-- Claim C1, amended: for a search request whose board is final the
worker returns immediately, emitting nothing (no `yield`) and consuming
no moves: its output is `[]` for every move stream. -/
theorem query_final_emits_nothing (state : Board) (cid : Option Nat)
    (moves : List Int) (h : state.is_final = true) :
    query state cid moves = [] := by
  rw [query, if_pos h]

/-! ### Concrete witnesses -/

theorem parse_serialise_roundtrip_witness :
    WellFormedWire ("<3,4,5,1,2,3,6,7,8>".data) ∧
    ∃ b : Board, Board.parseRes ("<3,4,5,1,2,3,6,7,8>".data)
      = ParseResult.ok b ∧ b.toWire = "<3,4,5,1,2,3,6,7,8>".data := by
  have hwf : WellFormedWire ("<3,4,5,1,2,3,6,7,8>".data) :=
    ⟨[3, 4, 5, 1, 2, 3, 6, 7, 8], by decide, by decide, by decide⟩
  exact ⟨hwf, parse_serialise_roundtrip _ hwf⟩

theorem sow_conserves_witness :
    (⟨0, 0, [3, 3, 3], [3, 3, 3]⟩ : Board).south_pits.length
      = (⟨0, 0, [3, 3, 3], [3, 3, 3]⟩ : Board).north_pits.length ∧
    (⟨0, 0, [3, 3, 3], [3, 3, 3]⟩ : Board).is_legal NORTH 0 = true ∧
    totalStones ((⟨0, 0, [3, 3, 3], [3, 3, 3]⟩ : Board).sow NORTH 0).1
      = totalStones ⟨0, 0, [3, 3, 3], [3, 3, 3]⟩ :=
  ⟨by decide, by decide, sow_conserves _ _ _ (by decide) (by decide)⟩

theorem sow_again_store_landing_witness :
    ((⟨0, 0, [3, 3, 3], [3, 3, 3]⟩ : Board).sow NORTH 0).2 = true ∧
    ((⟨0, 0, [3, 3, 3], [3, 3, 3]⟩ : Board).sowLanding NORTH 0
        = some (Landing.store NORTH) ∧
      ((⟨0, 0, [3, 3, 3], [3, 3, 3]⟩ : Board).sow NORTH 0).1.is_final
        = false) := by
  have h : ((⟨0, 0, [3, 3, 3], [3, 3, 3]⟩ : Board).sow NORTH 0).2 = true := by
    simp [Board.sow, sowLoop, Board.setPit, Board.pit, Board.side,
      Board.store, Board.setStore, Board.size, Board.is_final,
      Board.legal_moves, Board.is_legal, Board.collect, Board.captureStep,
      NORTH, SOUTH, List.range_succ]
  exact ⟨h, sow_again_store_landing _ _ _ h⟩

theorem sow_capture_step_witness :
    ((⟨0, 0, [0, 1, 9], [0, 5, 0]⟩ : Board).captureStep SOUTH 1 1).store
        SOUTH = 6 ∧
    ((⟨0, 0, [0, 1, 9], [0, 5, 0]⟩ : Board).captureStep SOUTH 1 1).pit
        SOUTH 1 = 0 ∧
    ((⟨0, 0, [0, 1, 9], [0, 5, 0]⟩ : Board).captureStep SOUTH 1 1).pit
        NORTH 1 = 0 ∧
    ((⟨0, 0, [1, 0, 9], [0, 5, 0]⟩ : Board).sow SOUTH 0).1.pit SOUTH 1
      = 0 ∧
    ((⟨0, 0, [1, 0, 9], [0, 5, 0]⟩ : Board).sow SOUTH 0).1.pit NORTH 1
      = 0 := by
  have h := sow_capture_step ⟨0, 0, [1, 0, 9], [0, 5, 0]⟩ SOUTH 0
    ⟨0, 0, [0, 1, 9], [0, 5, 0]⟩ SOUTH 2
    (by simp [sowLoop, Board.setPit, Board.pit, Board.side, Board.store,
      Board.setStore, Board.size, NORTH, SOUTH])
    rfl (by decide) (by decide) (by decide)
  exact ⟨h.1, h.2.1, h.2.2.1, h.2.2.2.1, h.2.2.2.2⟩

theorem sow_endgame_collection_witness :
    ((⟨0, 0, [0, 0, 1], [1, 1, 1]⟩ : Board).sow SOUTH 2).1.is_final
      = true ∧
    ((∀ (s : Bool) (p : Nat),
        ((⟨0, 0, [0, 0, 1], [1, 1, 1]⟩ : Board).sow SOUTH 2).1.pit s p
          = 0) ∧
      ((⟨0, 0, [0, 0, 1], [1, 1, 1]⟩ : Board).sow SOUTH 2).1.south
          + ((⟨0, 0, [0, 0, 1], [1, 1, 1]⟩ : Board).sow SOUTH 2).1.north
        = totalStones ⟨0, 0, [0, 0, 1], [1, 1, 1]⟩ ∧
      ((⟨0, 0, [0, 0, 1], [1, 1, 1]⟩ : Board).sow SOUTH 2).2 = false) := by
  have hfin : ((⟨0, 0, [0, 0, 1], [1, 1, 1]⟩ : Board).sow SOUTH 2).1.is_final
      = true := by
    simp [Board.sow, sowLoop, Board.setPit, Board.pit, Board.side,
      Board.store, Board.setStore, Board.size, Board.is_final,
      Board.legal_moves, Board.is_legal, Board.collect, Board.captureStep,
      NORTH, SOUTH, List.range_succ]
  exact ⟨hfin,
    sow_endgame_collection.1 _ _ _ (by decide) (by decide) hfin⟩

theorem parse_failure_modes_witness :
    boardTokens ("<3,1,1,1,1>".data)
      = some ([['3'], ['1'], ['1'], ['1'], ['1']], []) ∧
    ((([['3'], ['1'], ['1'], ['1'], ['1']] :
        List (List Char)).map charsToNat).length
      ≠ (([['3'], ['1'], ['1'], ['1'], ['1']] :
        List (List Char)).map charsToNat).headD 0 * 2 + 2 + 1) ∧
    Board.parseRes ("<3,1,1,1,1>".data) = ParseResult.noBoard ∧
    boardTokens ("1,1,1,1,1".data) = none ∧
    Board.parseRes ("1,1,1,1,1".data) = ParseResult.assertFail :=
  ⟨by decide, by decide,
    parse_failure_modes.1 ("<3,1,1,1,1>".data)
      [['3'], ['1'], ['1'], ['1'], ['1']] [] (by decide) (by decide),
    by decide,
    parse_failure_modes.2 ("1,1,1,1,1".data) (by decide)⟩

theorem kgp_reject_witness :
    handleCmd ⟨none, [], none⟩ initSession
        ⟨some 2, none, "kgp", [Arg.int 2, Arg.int 0, Arg.int 0]⟩
      = ⟨3, [⟨1, some 2, "error",
          [Arg.str ("protocol not supported".data)]⟩], [], false⟩ ∧
    (handleCmd ⟨none, [], none⟩ initSession
        ⟨some 2, none, "kgp", [Arg.int 2, Arg.int 0, Arg.int 0]⟩).done
      = false ∧
    runSession ⟨none, [], none⟩ initSession
        [⟨some 2, none, "kgp", [Arg.int 2, Arg.int 0, Arg.int 0]⟩,
         ⟨some 4, none, "ping", []⟩]
      = runSession ⟨none, [], none⟩
          (handleCmd ⟨none, [], none⟩ initSession
            ⟨some 2, none, "kgp", [Arg.int 2, Arg.int 0, Arg.int 0]⟩)
          [⟨some 4, none, "ping", []⟩] := by
  have h := kgp_reject ⟨none, [], none⟩ initSession (some 2) none 2
    (Arg.int 0) (Arg.int 0) (by decide)
  exact ⟨h.1, h.2.1, h.2.2 ⟨some 4, none, "ping", []⟩ [] (by decide)⟩

theorem query_final_emits_nothing_witness :
    (⟨4, 5, [0, 0, 0], [6, 7, 8]⟩ : Board).is_final = true ∧
    query ⟨4, 5, [0, 0, 0], [6, 7, 8]⟩ (some 9) [2, 0, 1] = [] :=
  ⟨by decide, query_final_emits_nothing _ _ _ (by decide)⟩

end Kgp
